import Mathlib

/-!
# Verification of the spelling-correction engine

Shallow embedding of the candidate-generation and ranking core of
`app/app.py`: `edit_one_letter`, `edit_two_letters`, `get_corrections`.
Words are modelled as `List Char` (Python `str`).  A Python `set` of
words is modelled as a duplicate-free list (`List.dedup` applied to the
generated candidates): membership, cardinality (= length) and
"duplicates appear once" all coincide with set semantics, while the
list remains executable.  The vocabulary is a `Finset (List Char)`,
the probability table an association list (Python `dict`), and
probabilities are `ℚ` (exact stand-in for Python floats: the ranking
logic only compares probabilities, it never does float arithmetic).
-/

namespace SpellApp

/-- The alphabet string `letters = 'abcdefghijklmnopqrstuvwxyz'`. -/
def letters : List Char :=
  ['a', 'b', 'c', 'd', 'e', 'f', 'g', 'h', 'i', 'j', 'k', 'l', 'm',
   'n', 'o', 'p', 'q', 'r', 's', 't', 'u', 'v', 'w', 'x', 'y', 'z']

/-- `splits = [(word[:i], word[i:]) for i in range(len(word) + 1)]`. -/
def splits (word : List Char) : List (List Char × List Char) :=
  (List.range (word.length + 1)).map fun i => (word.take i, word.drop i)

/-- `deletes = [L + R[1:] for L, R in splits if R]`. -/
def deletes (word : List Char) : List (List Char) :=
  (splits word).filterMap fun p =>
    match p.2 with
    | [] => none
    | _ :: t => some (p.1 ++ t)

/-- `transposes = [L + R[1] + R[0] + R[2:] for L, R in splits if len(R) > 1]`. -/
def transposes (word : List Char) : List (List Char) :=
  (splits word).filterMap fun p =>
    match p.2 with
    | a :: b :: t => some (p.1 ++ b :: a :: t)
    | _ => none

/-- `replaces = [L + c + R[1:] for L, R in splits if R for c in letters]`. -/
def replaces (word : List Char) : List (List Char) :=
  (splits word).flatMap fun p =>
    match p.2 with
    | [] => []
    | _ :: t => letters.map fun c => p.1 ++ c :: t

/-- `inserts = [L + c + R for L, R in splits for c in letters]`. -/
def inserts (word : List Char) : List (List Char) :=
  (splits word).flatMap fun p => letters.map fun c => p.1 ++ c :: p.2

/-- The concatenation `deletes + transposes + replaces + inserts`
whose `set(...)` is returned by `edit_one_letter`. -/
def editList (word : List Char) : List (List Char) :=
  deletes word ++ transposes word ++ replaces word ++ inserts word

set_option linter.unusedVariables false in
/-- `edit_one_letter(word, allow_switches=True)`:
`return set(deletes + transposes + replaces + inserts)`.
The `allow_switches` parameter is accepted but, as in the source,
never read by the body. -/
def edit_one_letter (word : List Char) (allow_switches : Bool) :
    List (List Char) :=
  (editList word).dedup

/-- `edit_two_letters(word, allow_switches=True)`:
`return set(e2 for e1 in edit_one_letter(word, allow_switches)
            for e2 in edit_one_letter(e1, allow_switches))`. -/
def edit_two_letters (word : List Char) (allow_switches : Bool) :
    List (List Char) :=
  ((edit_one_letter word allow_switches).flatMap fun e1 =>
    edit_one_letter e1 allow_switches).dedup

/-- Descending-probability order used by
`sorted(..., key=lambda x: x[1], reverse=True)`. -/
def probOrder (x y : List Char × ℚ) : Prop := y.2 ≤ x.2

instance : DecidableRel probOrder := fun x y =>
  inferInstanceAs (Decidable (y.2 ≤ x.2))

instance : IsTotal (List Char × ℚ) probOrder :=
  ⟨fun x y => le_total y.2 x.2⟩

instance : IsTrans (List Char × ℚ) probOrder :=
  ⟨fun _ _ _ h1 h2 => le_trans h2 h1⟩

/-- `get_corrections(word, probs, vocab)`:
`suggestions = list(edit_two_letters(word).intersection(vocab))`
`return sorted([(s, probs.get(s, 0)) for s in suggestions],
               key=lambda x: x[1], reverse=True)`.
The call `edit_two_letters(word)` uses the default `allow_switches=True`. -/
def get_corrections (word : List Char)
    (probs : List (List Char × ℚ)) (vocab : Finset (List Char)) :
    List (List Char × ℚ) :=
  let suggestions := (edit_two_letters word true).filter fun s => s ∈ vocab
  List.insertionSort probOrder
    (suggestions.map fun s => (s, (List.lookup s probs).getD 0))

end SpellApp

namespace SpellApp

/-! ## Membership characterizations -/

theorem mem_splits {w : List Char} {p : List Char × List Char} :
    p ∈ splits w ↔ ∃ i, i ≤ w.length ∧ p = (w.take i, w.drop i) := by
  simp only [splits, List.mem_map, List.mem_range, Nat.lt_succ_iff]
  constructor
  · rintro ⟨i, hi, rfl⟩
    exact ⟨i, hi, rfl⟩
  · rintro ⟨i, hi, rfl⟩
    exact ⟨i, hi, rfl⟩

theorem mem_deletes {w s : List Char} :
    s ∈ deletes w ↔
      ∃ i, i ≤ w.length ∧ w.drop i ≠ [] ∧ s = w.take i ++ (w.drop i).tail := by
  simp only [deletes, List.mem_filterMap]
  constructor
  · rintro ⟨p, hp, hf⟩
    obtain ⟨i, hi, rfl⟩ := mem_splits.1 hp
    cases h : w.drop i with
    | nil => simp [h] at hf
    | cons a t =>
        simp only [h] at hf
        cases hf
        exact ⟨i, hi, by simp [h]⟩
  · rintro ⟨i, hi, hne, rfl⟩
    refine ⟨(w.take i, w.drop i), mem_splits.2 ⟨i, hi, rfl⟩, ?_⟩
    cases h : w.drop i with
    | nil => exact absurd h hne
    | cons a t => simp [h]

theorem mem_transposes {w s : List Char} :
    s ∈ transposes w ↔
      ∃ i, i ≤ w.length ∧
        ∃ a c t, w.drop i = a :: c :: t ∧ s = w.take i ++ c :: a :: t := by
  simp only [transposes, List.mem_filterMap]
  constructor
  · rintro ⟨p, hp, hf⟩
    obtain ⟨i, hi, rfl⟩ := mem_splits.1 hp
    cases h : w.drop i with
    | nil => simp [h] at hf
    | cons a t =>
        cases t with
        | nil => simp [h] at hf
        | cons c t' =>
            simp only [h] at hf
            cases hf
            exact ⟨i, hi, a, c, t', h, rfl⟩
  · rintro ⟨i, hi, a, c, t, h, rfl⟩
    exact ⟨(w.take i, w.drop i), mem_splits.2 ⟨i, hi, rfl⟩, by simp [h]⟩

theorem mem_replaces {w s : List Char} :
    s ∈ replaces w ↔
      ∃ i, i ≤ w.length ∧ ∃ c ∈ letters,
        w.drop i ≠ [] ∧ s = w.take i ++ c :: (w.drop i).tail := by
  simp only [replaces, List.mem_flatMap]
  constructor
  · rintro ⟨p, hp, hf⟩
    obtain ⟨i, hi, rfl⟩ := mem_splits.1 hp
    cases h : w.drop i with
    | nil => simp [h] at hf
    | cons a t =>
        simp only [h, List.mem_map] at hf
        obtain ⟨c, hc, rfl⟩ := hf
        exact ⟨i, hi, c, hc, by simp [h]⟩
  · rintro ⟨i, hi, c, hc, hne, rfl⟩
    refine ⟨(w.take i, w.drop i), mem_splits.2 ⟨i, hi, rfl⟩, ?_⟩
    cases h : w.drop i with
    | nil => exact absurd h hne
    | cons a t =>
        simp only [h, List.mem_map, List.tail_cons]
        exact ⟨c, hc, rfl⟩

theorem mem_inserts {w s : List Char} :
    s ∈ inserts w ↔
      ∃ i, i ≤ w.length ∧ ∃ c ∈ letters, s = w.take i ++ c :: w.drop i := by
  simp only [inserts, List.mem_flatMap, List.mem_map]
  constructor
  · rintro ⟨p, hp, c, hc, rfl⟩
    obtain ⟨i, hi, rfl⟩ := mem_splits.1 hp
    exact ⟨i, hi, c, hc, rfl⟩
  · rintro ⟨i, hi, c, hc, rfl⟩
    exact ⟨(w.take i, w.drop i), mem_splits.2 ⟨i, hi, rfl⟩, c, hc, rfl⟩

theorem mem_editList {w s : List Char} :
    s ∈ editList w ↔
      s ∈ deletes w ∨ s ∈ transposes w ∨ s ∈ replaces w ∨ s ∈ inserts w := by
  simp [editList, List.mem_append, or_assoc]

theorem mem_edit_one_letter {w s : List Char} {b : Bool} :
    s ∈ edit_one_letter w b ↔ s ∈ editList w :=
  List.mem_dedup

theorem mem_edit_two_letters {w s : List Char} {b : Bool} :
    s ∈ edit_two_letters w b ↔
      ∃ e1 ∈ edit_one_letter w b, s ∈ edit_one_letter e1 b := by
  simp [edit_two_letters, List.mem_dedup, List.mem_flatMap]

end SpellApp

namespace SpellApp

/-! ## Facts about `get_corrections` -/

theorem nodup_edit_one_letter {w : List Char} {b : Bool} :
    (edit_one_letter w b).Nodup :=
  List.nodup_dedup _

theorem nodup_edit_two_letters {w : List Char} {b : Bool} :
    (edit_two_letters w b).Nodup :=
  List.nodup_dedup _

theorem get_corrections_perm (word : List Char)
    (probs : List (List Char × ℚ)) (vocab : Finset (List Char)) :
    List.Perm (get_corrections word probs vocab)
      (((edit_two_letters word true).filter fun s => s ∈ vocab).map
        fun s => (s, (List.lookup s probs).getD 0)) :=
  List.perm_insertionSort _ _

theorem mem_get_corrections {word s : List Char} {q : ℚ}
    {probs : List (List Char × ℚ)} {vocab : Finset (List Char)} :
    (s, q) ∈ get_corrections word probs vocab ↔
      s ∈ edit_two_letters word true ∧ s ∈ vocab ∧
        q = (List.lookup s probs).getD 0 := by
  rw [(get_corrections_perm word probs vocab).mem_iff]
  simp only [List.mem_map, List.mem_filter, decide_eq_true_eq, Prod.mk.injEq]
  constructor
  · rintro ⟨s', ⟨h2, hv⟩, rfl, rfl⟩
    exact ⟨h2, hv, rfl⟩
  · rintro ⟨h2, hv, rfl⟩
    exact ⟨s, ⟨h2, hv⟩, rfl, rfl⟩

theorem get_corrections_length (word : List Char)
    (probs : List (List Char × ℚ)) (vocab : Finset (List Char)) :
    (get_corrections word probs vocab).length =
      ((edit_two_letters word true).toFinset ∩ vocab).card := by
  rw [(get_corrections_perm word probs vocab).length_eq, List.length_map]
  have hnd : ((edit_two_letters word true).filter fun s => s ∈ vocab).Nodup :=
    nodup_edit_two_letters.filter _
  rw [← List.toFinset_card_of_nodup hnd]
  congr 1
  ext s
  simp [List.mem_filter, Finset.mem_inter, List.mem_toFinset]

end SpellApp

namespace SpellApp

/-! ## Length bounds for a single edit -/

theorem length_of_mem_editList {w s : List Char} (h : s ∈ editList w) :
    s.length + 1 = w.length ∨ s.length = w.length ∨
      s.length = w.length + 1 := by
  rcases mem_editList.1 h with h | h | h | h
  · obtain ⟨i, hi, hne, rfl⟩ := mem_deletes.1 h
    have hpos : 0 < (w.drop i).length := List.length_pos.2 hne
    have hd : (w.drop i).length = w.length - i := List.length_drop i w
    have ht : (w.drop i).tail.length = (w.drop i).length - 1 := List.length_tail _
    have hta : (w.take i).length = i := by
      rw [List.length_take]; omega
    left
    rw [List.length_append, hta, ht]
    omega
  · obtain ⟨i, hi, a, c, t, hd, rfl⟩ := mem_transposes.1 h
    have hd' : (w.drop i).length = w.length - i := List.length_drop i w
    have hta : (w.take i).length = i := by
      rw [List.length_take]; omega
    right; left
    rw [List.length_append, hta]
    rw [hd] at hd'
    simp only [List.length_cons] at hd' ⊢
    omega
  · obtain ⟨i, hi, c, _, hne, rfl⟩ := mem_replaces.1 h
    have hpos : 0 < (w.drop i).length := List.length_pos.2 hne
    have hd : (w.drop i).length = w.length - i := List.length_drop i w
    have ht : (w.drop i).tail.length = (w.drop i).length - 1 := List.length_tail _
    have hta : (w.take i).length = i := by
      rw [List.length_take]; omega
    right; left
    rw [List.length_append, hta, List.length_cons, ht]
    omega
  · obtain ⟨i, hi, c, _, rfl⟩ := mem_inserts.1 h
    have hd : (w.drop i).length = w.length - i := List.length_drop i w
    have hta : (w.take i).length = i := by
      rw [List.length_take]; omega
    right; right
    rw [List.length_append, hta, List.length_cons]
    omega

end SpellApp

namespace SpellApp

/-! ## The claims -/

/-- **C1.** For every word `w`, `edit_one_letter w` equals, with set
semantics (each candidate once: the result is duplicate-free), the union
over every split position `i ∈ [0, len w]` of the four edit families on
`(left, right) = (w.take i, w.drop i)`: deletes (`left ++ right.tail`,
`right ≠ []`), transposes (`left ++ right[1] :: right[0] :: right[2:]`,
`len right ≥ 2`), replaces (`left ++ c :: right.tail` for `c ∈ letters`,
`right ≠ []`), and inserts (`left ++ c :: right` for `c ∈ letters`). -/
theorem edit_one_letter_eq_union_of_families (w s : List Char) (b : Bool) :
    (s ∈ edit_one_letter w b ↔
      ∃ i, i ≤ w.length ∧
        ((w.drop i ≠ [] ∧ s = w.take i ++ (w.drop i).tail) ∨
         (∃ a c t, w.drop i = a :: c :: t ∧ s = w.take i ++ c :: a :: t) ∨
         (∃ c ∈ letters, w.drop i ≠ [] ∧
           s = w.take i ++ c :: (w.drop i).tail) ∨
         (∃ c ∈ letters, s = w.take i ++ c :: w.drop i))) ∧
    (edit_one_letter w b).Nodup := by
  refine ⟨?_, nodup_edit_one_letter⟩
  rw [mem_edit_one_letter, mem_editList, mem_deletes, mem_transposes,
    mem_replaces, mem_inserts]
  constructor
  · rintro (⟨i, hi, h⟩ | ⟨i, hi, h⟩ | ⟨i, hi, h⟩ | ⟨i, hi, h⟩)
    · exact ⟨i, hi, Or.inl h⟩
    · exact ⟨i, hi, Or.inr (Or.inl h)⟩
    · exact ⟨i, hi, Or.inr (Or.inr (Or.inl h))⟩
    · exact ⟨i, hi, Or.inr (Or.inr (Or.inr h))⟩
  · rintro ⟨i, hi, h | h | h | h⟩
    · exact Or.inl ⟨i, hi, h⟩
    · exact Or.inr (Or.inl ⟨i, hi, h⟩)
    · exact Or.inr (Or.inr (Or.inl ⟨i, hi, h⟩))
    · exact Or.inr (Or.inr (Or.inr ⟨i, hi, h⟩))

/-- **C2.** For every word `w`, `edit_two_letters w` is exactly the union,
over every `w1 ∈ edit_one_letter w`, of `edit_one_letter w1` — nothing
more (the one-edit set is not additionally unioned in) and nothing less.
Stated as an equality of finite sets. -/
theorem edit_two_letters_eq_biUnion (w : List Char) (b : Bool) :
    (edit_two_letters w b).toFinset =
      (edit_one_letter w b).toFinset.biUnion
        (fun e1 => (edit_one_letter e1 b).toFinset) := by
  ext s
  simp only [List.mem_toFinset, Finset.mem_biUnion, mem_edit_two_letters]

/-- **C3.** For every word, probability table and vocabulary, the ranked
output of `get_corrections` is sorted in non-increasing order of
probability: every pair of entries at positions `i < j` satisfies
`probability(result[j]) ≤ probability(result[i])`. -/
theorem get_corrections_sorted_descending (word : List Char)
    (probs : List (List Char × ℚ)) (vocab : Finset (List Char)) :
    List.Pairwise (fun x y : List Char × ℚ => y.2 ≤ x.2)
      (get_corrections word probs vocab) :=
  List.sorted_insertionSort probOrder _

/-- **C4.** Every candidate that survives filtering (it is in the two-edit
set and in the vocabulary) but is absent from the probability table is
paired with probability `0` in the output of `get_corrections`; the
missing key never makes the (total) operation fail. -/
theorem get_corrections_missing_key_zero (word s : List Char)
    (probs : List (List Char × ℚ)) (vocab : Finset (List Char))
    (h2 : s ∈ edit_two_letters word true) (hv : s ∈ vocab)
    (hmiss : List.lookup s probs = none) :
    (s, 0) ∈ get_corrections word probs vocab := by
  rw [mem_get_corrections]
  exact ⟨h2, hv, by rw [hmiss]; rfl⟩

theorem get_corrections_missing_key_zero_witness :
    ((['a', 'b'] ∈ edit_two_letters ['a'] true ∧
        ['a', 'b'] ∈ ({['a', 'b']} : Finset (List Char)) ∧
        List.lookup ['a', 'b'] ([] : List (List Char × ℚ)) = none) ∧
      (['a', 'b'], (0 : ℚ)) ∈ get_corrections ['a'] [] {['a', 'b']}) := by
  have hm : ['a', 'b'] ∈ edit_two_letters ['a'] true :=
    mem_edit_two_letters.2 ⟨['a', 'b'], mem_edit_one_letter.2 (by decide),
      mem_edit_one_letter.2 (by decide)⟩
  exact ⟨⟨hm, Finset.mem_singleton_self _, rfl⟩,
    get_corrections_missing_key_zero ['a'] ['a', 'b'] [] {['a', 'b']} hm
      (Finset.mem_singleton_self _) rfl⟩

end SpellApp

namespace SpellApp

/-- `get_corrections` against an empty vocabulary returns the empty list
(a normal, non-error outcome) for every word. -/
theorem get_corrections_empty_vocab (word : List Char)
    (probs : List (List Char × ℚ)) :
    get_corrections word probs ∅ = [] := by
  have hperm := get_corrections_perm word probs ∅
  have hf : ((edit_two_letters word true).filter
      fun s => s ∈ (∅ : Finset (List Char))) = [] := by
    simp
  rw [hf, List.map_nil] at hperm
  exact hperm.eq_nil

/-- **C5, counterexample.** The word `"A"` contains a character outside
`letters`, yet `get_corrections` does not fail: with vocabulary
`{"a"}` it runs the normal pipeline and even returns the suggestion
`("a", 0)` — no `InvalidInputError` exists anywhere in the code, which
is a total function on arbitrary strings. -/
theorem get_corrections_no_alphabet_validation :
    (∃ c ∈ ['A'], c ∉ letters) ∧
      (['a'], (0 : ℚ)) ∈ get_corrections ['A'] [] {['a']} := by
  refine ⟨by decide, ?_⟩
  rw [mem_get_corrections]
  exact ⟨mem_edit_two_letters.2 ⟨['a'], mem_edit_one_letter.2 (by decide),
      mem_edit_one_letter.2 (by decide)⟩,
    Finset.mem_singleton_self _, rfl⟩

/-- **C5, amended.** `get_corrections` performs no alphabet validation and
has no failure path: for every word — also one containing characters
outside `'a'..'z'` — it totally computes the normal pipeline, returning
one ranked suggestion per element of the (possibly empty) intersection
of the two-edit set with the vocabulary. -/
theorem get_corrections_total_on_any_word (word : List Char)
    (probs : List (List Char × ℚ)) (vocab : Finset (List Char)) :
    (get_corrections word probs vocab).length =
      ((edit_two_letters word true).toFinset ∩ vocab).card :=
  get_corrections_length word probs vocab

set_option maxRecDepth 40000 in
/-- **C6.** The inclusion `edit_two_letters w ⊇ edit_one_letter w` is not
guaranteed in general: for the word `"12"`, the transposition `"21"` is
in the one-edit set but not in the two-edit set, because the two-edit
set is built purely by composing one-edit outputs and is not unioned
with the one-edit set. -/
theorem one_edit_not_subset_two_edit :
    ∃ w : List Char, ∃ x ∈ edit_one_letter w true,
      x ∉ edit_two_letters w true := by
  refine ⟨['1', '2'], ['2', '1'], mem_edit_one_letter.2 (by decide), ?_⟩
  rw [mem_edit_two_letters]
  rintro ⟨e1, he1, hx⟩
  have h : ∀ e1 ∈ editList ['1', '2'], ['2', '1'] ∉ editList e1 := by decide
  exact h e1 (mem_edit_one_letter.1 he1) (mem_edit_one_letter.1 hx)

end SpellApp

namespace SpellApp

/-- A non-empty word all of whose characters are alphabet letters occurs
in its own candidate list, by replacing its first letter with itself. -/
theorem self_mem_editList {w : List Char} (hne : w ≠ [])
    (halpha : ∀ c ∈ w, c ∈ letters) : w ∈ editList w := by
  obtain ⟨a, t, rfl⟩ := List.exists_cons_of_ne_nil hne
  apply mem_editList.2
  refine Or.inr (Or.inr (Or.inl (mem_replaces.2 ?_)))
  exact ⟨0, Nat.zero_le _, a, halpha a (List.mem_cons_self a t),
    by simp, by simp⟩

/-- Complement to the non-inclusion fact: as soon as every character of a
non-empty word is an alphabet letter, the one-edit set IS contained in
the two-edit set, via the no-op replace `w ∈ edit_one_letter w` and one
further edit. -/
theorem one_edit_subset_two_edit_of_alphabetic {w : List Char} (b : Bool)
    (hne : w ≠ []) (halpha : ∀ c ∈ w, c ∈ letters) :
    ∀ x ∈ edit_one_letter w b, x ∈ edit_two_letters w b := fun _ hx =>
  mem_edit_two_letters.2
    ⟨w, mem_edit_one_letter.2 (self_mem_editList hne halpha), hx⟩

/-- **C7.** Every non-empty word over the alphabet is a member of its own
one-edit set, via the no-op replace where the substituted letter equals
the replaced letter; consequently, if the word is in the vocabulary it
also survives filtering (it is in the two-edit set and the vocabulary)
and appears among the ranked suggestions of `get_corrections`. -/
theorem word_in_own_one_edit (w : List Char) (b : Bool)
    (probs : List (List Char × ℚ)) (vocab : Finset (List Char))
    (hne : w ≠ []) (halpha : ∀ c ∈ w, c ∈ letters) :
    w ∈ edit_one_letter w b ∧
      (w ∈ vocab →
        w ∈ edit_two_letters w true ∧
          ∃ p, (w, p) ∈ get_corrections w probs vocab) := by
  have h1 : ∀ b' : Bool, w ∈ edit_one_letter w b' :=
    fun _ => mem_edit_one_letter.2 (self_mem_editList hne halpha)
  have h2 : w ∈ edit_two_letters w true :=
    mem_edit_two_letters.2 ⟨w, h1 true, h1 true⟩
  exact ⟨h1 b, fun hv => ⟨h2, ⟨(List.lookup w probs).getD 0,
    mem_get_corrections.2 ⟨h2, hv, rfl⟩⟩⟩⟩

theorem word_in_own_one_edit_witness :
    ((['a'] : List Char) ≠ [] ∧ ∀ c ∈ (['a'] : List Char), c ∈ letters) ∧
      (['a'] ∈ edit_one_letter ['a'] true ∧
        (['a'] ∈ ({['a']} : Finset (List Char)) →
          ['a'] ∈ edit_two_letters ['a'] true ∧
            ∃ p, (['a'], p) ∈ get_corrections ['a'] [] {['a']})) :=
  ⟨⟨by decide, by decide⟩,
    word_in_own_one_edit ['a'] true [] {['a']} (by decide) (by decide)⟩

/-- **C8.** `edit_one_letter` applied to the empty string yields exactly
26 results — the 26 single-letter strings produced by insertion at the
only split point — and the delete, transpose and replace families are
all empty there. -/
theorem one_edit_of_empty_word :
    deletes [] = [] ∧ transposes [] = [] ∧ replaces [] = [] ∧
      inserts [] = letters.map (fun c => [c]) ∧
      edit_one_letter [] true = letters.map (fun c => [c]) ∧
      (edit_one_letter [] true).length = 26 := by
  refine ⟨?_, ?_, ?_, ?_, ?_, ?_⟩ <;> decide

/-- **C9.** The `allow_switches` parameter has no effect on the output:
for every word, `edit_one_letter` and `edit_two_letters` return the
same set for `true` as for `false` — transpositions are generated
unconditionally. -/
theorem allow_switches_has_no_effect (w : List Char) :
    edit_one_letter w true = edit_one_letter w false ∧
      edit_two_letters w true = edit_two_letters w false :=
  ⟨rfl, rfl⟩

/-- **C10.** Every member of `edit_one_letter w` has length
`len w - 1`, `len w` or `len w + 1`, and consequently every member of
`edit_two_letters w` has length differing from `len w` by at most 2. -/
theorem edit_length_bounds (w s : List Char) (b : Bool) :
    (s ∈ edit_one_letter w b →
      s.length + 1 = w.length ∨ s.length = w.length ∨
        s.length = w.length + 1) ∧
    (s ∈ edit_two_letters w b →
      w.length ≤ s.length + 2 ∧ s.length ≤ w.length + 2) := by
  constructor
  · intro h
    exact length_of_mem_editList (mem_edit_one_letter.1 h)
  · intro h
    obtain ⟨e1, he1, hx⟩ := mem_edit_two_letters.1 h
    have l1 := length_of_mem_editList (mem_edit_one_letter.1 he1)
    have l2 := length_of_mem_editList (mem_edit_one_letter.1 hx)
    omega

theorem edit_length_bounds_witness :
    ((['b'] ∈ edit_one_letter ['a', 'b'] true ∧
        (['b'].length + 1 = ['a', 'b'].length ∨
          ['b'].length = ['a', 'b'].length ∨
          ['b'].length = ['a', 'b'].length + 1)) ∧
      (['a'] ∈ edit_two_letters ['a', 'b'] true ∧
        (['a', 'b'].length ≤ ['a'].length + 2 ∧
          ['a'].length ≤ ['a', 'b'].length + 2))) := by
  have h1 : ['b'] ∈ edit_one_letter ['a', 'b'] true :=
    mem_edit_one_letter.2 (by decide)
  have h2 : ['a'] ∈ edit_two_letters ['a', 'b'] true :=
    mem_edit_two_letters.2 ⟨['b'], mem_edit_one_letter.2 (by decide),
      mem_edit_one_letter.2 (by decide)⟩
  exact ⟨⟨h1, (edit_length_bounds ['a', 'b'] ['b'] true).1 h1⟩,
    ⟨h2, (edit_length_bounds ['a', 'b'] ['a'] true).2 h2⟩⟩

end SpellApp
